import Mathlib

/-!
Shallow embedding of the recursive container-traversal engine declared in
`src/visitable.h` (class `visitable<T>`).  The header only declares the
interface: the `VisitResponse` enum and the signatures plus doc comments of
`visit_items_with_parent`, `visit_items` (and const variants), `find_parent`,
`parents`, `has_item`, `has_item_with`, `remove_items_with` and `remove_item`.
The method bodies are not part of the provided sources, so each operation is
modelled from the specification's algorithm descriptions.

A tree node is modelled as an identifier plus an ordered list of children
(identity comparison in the engine becomes comparison of identifiers; the
strict-tree invariant becomes `Nodup` of the pre-order identifier list).
A `visitable` instance is a scope exposing an ordered list of top-level
nodes (`List Node`); the instance itself is not a candidate node.
-/

namespace Visitable

open List

/-- VisitResponse from src/visitable.h: ABORT stops processing after this
node, NEXT descends to children then moves to the next sibling, SKIP skips
child nodes and moves directly to the next sibling. -/
inductive VisitResponse where
  | ABORT
  | NEXT
  | SKIP
deriving DecidableEq, Repr

/-- Tree node: an identity (`Nat`) plus an ordered list of child nodes.
The payload is opaque to the engine, so the identity stands for the node. -/
inductive Node where
  | mk : Nat → List Node → Node

/-- Identity of a node. -/
def Node.id : Node → Nat
  | .mk i _ => i

/-- Children of a node. -/
def Node.children : Node → List Node
  | .mk _ cs => cs

mutual

/-- Number of nodes in the subtree rooted at a node. -/
def sizeN : Node → Nat
  | .mk _ cs => 1 + sizeL cs

/-- Number of nodes in a forest. -/
def sizeL : List Node → Nat
  | [] => 0
  | c :: cs => sizeN c + sizeL cs

end

mutual

/-- Pre-order list of the identifiers of all nodes in a subtree. -/
def idsN : Node → List Nat
  | .mk i cs => i :: idsL cs

/-- Pre-order list of the identifiers of all nodes in a forest. -/
def idsL : List Node → List Nat
  | [] => []
  | c :: cs => idsN c ++ idsL cs

end

mutual

/-- Pre-order list of all node values in a subtree. -/
def nodesN : Node → List Node
  | .mk i cs => .mk i cs :: nodesL cs

/-- Pre-order list of all node values in a forest. -/
def nodesL : List Node → List Node
  | [] => []
  | c :: cs => nodesN c ++ nodesL cs

end

/-- Identifiers of the direct children of a node. -/
def childIds (n : Node) : List Nat :=
  n.children.map Node.id

mutual

/-- Boolean structural equality on nodes. -/
def beqN : Node → Node → Bool
  | .mk i cs, .mk j ds => i == j && beqL cs ds

/-- Boolean structural equality on forests. -/
def beqL : List Node → List Node → Bool
  | [], [] => true
  | c :: cs, d :: ds => beqN c d && beqL cs ds
  | [], _ :: _ => false
  | _ :: _, [] => false

end

mutual

theorem beqN_iff : ∀ a b : Node, beqN a b = true ↔ a = b
  | .mk i cs, .mk j ds => by
    simp only [beqN, Bool.and_eq_true, beq_iff_eq, Node.mk.injEq]
    exact and_congr Iff.rfl (beqL_iff cs ds)

theorem beqL_iff : ∀ as bs : List Node, beqL as bs = true ↔ as = bs
  | [], [] => by simp [beqL]
  | c :: cs, d :: ds => by
    simp only [beqL, Bool.and_eq_true, List.cons.injEq]
    exact and_congr (beqN_iff c d) (beqL_iff cs ds)
  | [], _ :: _ => by simp [beqL]
  | _ :: _, [] => by simp [beqL]

end

instance : DecidableEq Node := fun a b =>
  decidable_of_iff (beqN a b = true) (beqN_iff a b)

mutual

/-- Modelled from the spec: the body of `visit_items_with_parent` is not in
the provided sources, so the depth-first pre-order visit of one node follows
the specification: call the decision function on the node with its parent;
on ABORT propagate ABORT; on SKIP do not descend and continue with the next
sibling (so the caller sees NEXT); on NEXT visit the children in order with
the current node as parent.  Alongside the propagated `VisitResponse` the
model returns the trace of (node, parent) pairs passed to the decision
function, in call order, so that visitation-order properties can be stated. -/
def visitN (f : Node → Option Node → VisitResponse) (par : Option Node) :
    Node → VisitResponse × List (Node × Option Node)
  | .mk i cs =>
    match f (.mk i cs) par with
    | .ABORT => (.ABORT, [(.mk i cs, par)])
    | .SKIP => (.NEXT, [(.mk i cs, par)])
    | .NEXT =>
      let r := visitL f (some (.mk i cs)) cs
      (r.1, (.mk i cs, par) :: r.2)

/-- Modelled from the spec: visit the nodes of a forest in order; an ABORT
from any node short-circuits all remaining siblings. -/
def visitL (f : Node → Option Node → VisitResponse) (par : Option Node) :
    List Node → VisitResponse × List (Node × Option Node)
  | [] => (.NEXT, [])
  | c :: cs =>
    let r := visitN f par c
    match r.1 with
    | .ABORT => (.ABORT, r.2)
    | _ =>
      let r2 := visitL f par cs
      (r2.1, r.2 ++ r2.2)

end

/-- Modelled from the spec: `visit_items_with_parent` traverses the instance
(a scope exposing its top-level nodes) depth-first, the decision function
receiving each node together with its parent (none for a top-level node). -/
def visit_items_with_parent (T : List Node) (f : Node → Option Node → VisitResponse) :
    VisitResponse :=
  (visitL f none T).1

/-- Modelled from the spec: the const variant shares identical traversal
logic, differing only in the access level granted to the callback, which a
pure model does not distinguish. -/
def visit_items_with_parent_const (T : List Node)
    (f : Node → Option Node → VisitResponse) : VisitResponse :=
  visit_items_with_parent T f

mutual

/-- Modelled from the spec: lightweight visit of one node, omitting the
parent argument, with its own recursion mirroring the traversal logic. -/
def visit1N (f : Node → VisitResponse) : Node → VisitResponse × List Node
  | .mk i cs =>
    match f (.mk i cs) with
    | .ABORT => (.ABORT, [.mk i cs])
    | .SKIP => (.NEXT, [.mk i cs])
    | .NEXT =>
      let r := visit1L f cs
      (r.1, .mk i cs :: r.2)

/-- Modelled from the spec: lightweight visit of a forest in order. -/
def visit1L (f : Node → VisitResponse) : List Node → VisitResponse × List Node
  | [] => (.NEXT, [])
  | c :: cs =>
    let r := visit1N f c
    match r.1 with
    | .ABORT => (.ABORT, r.2)
    | _ =>
      let r2 := visit1L f cs
      (r2.1, r.2 ++ r2.2)

end

/-- Modelled from the spec: `visit_items`, the lightweight version which
provides only the current node to the decision function. -/
def visit_items (T : List Node) (f : Node → VisitResponse) : VisitResponse :=
  (visit1L f T).1

/-- Modelled from the spec: const variant of `visit_items`; identical
traversal, read-only access, which a pure model does not distinguish. -/
def visit_items_const (T : List Node) (f : Node → VisitResponse) : VisitResponse :=
  visit_items T f

mutual

/-- Modelled from the spec: the body of `find_parent` is not in the provided
sources; following the specification, the pre-order walk tests at each
visited node whether the target is among the node's direct children by
identity, and stops on the first such node. -/
def findParentN (tid : Nat) : Node → Option Node
  | .mk i cs =>
    if tid ∈ cs.map Node.id then some (.mk i cs)
    else findParentL tid cs

/-- Modelled from the spec: first-match pre-order parent search in a forest. -/
def findParentL (tid : Nat) : List Node → Option Node
  | [] => none
  | c :: cs =>
    match findParentN tid c with
    | some p => some p
    | none => findParentL tid cs

end

/-- Modelled from the spec: `find_parent` returns the immediate parent
container of the target, or none if the target is not within a container
(it is a top-level node of the instance, or absent altogether). -/
def find_parent (T : List Node) (tid : Nat) : Option Node :=
  findParentL tid T

mutual

/-- Modelled from the spec: the body of `parents` is not in the provided
sources; following the specification, search a subtree for the target and,
on each successful descent, record the containing node, yielding the chain
of containers from the innermost outward (the current node appended last).
Returns none when the target is not in this subtree. -/
def parentsN (tid : Nat) : Node → Option (List Node)
  | .mk i cs =>
    match parentsL tid cs with
    | some ps => some (ps ++ [.mk i cs])
    | none => none

/-- Modelled from the spec: search a forest for the target; a top-level
occurrence contributes an empty chain. -/
def parentsL (tid : Nat) : List Node → Option (List Node)
  | [] => none
  | c :: cs =>
    if c.id = tid then some []
    else
      match parentsN tid c with
      | some ps => some ps
      | none => parentsL tid cs

end

/-- Modelled from the spec: `parents` returns the vector of parent
containers starting with the innermost, empty when the target is a
top-level node of the instance or is not found. -/
def parents (T : List Node) (tid : Nat) : List Node :=
  (parentsL tid T).getD []

mutual

/-- Modelled from the spec: the body of `has_item` is not in the provided
sources; following the specification, it is an identity search over the
whole subtree. -/
def hasItemN (tid : Nat) : Node → Bool
  | .mk i cs => i = tid || hasItemL tid cs

/-- Modelled from the spec: identity search over a forest. -/
def hasItemL (tid : Nat) : List Node → Bool
  | [] => false
  | c :: cs => hasItemN tid c || hasItemL tid cs

end

/-- Modelled from the spec: `has_item` returns true if this visitable
instance contains the item (at any depth). -/
def has_item (T : List Node) (tid : Nat) : Bool :=
  hasItemL tid T

/-- Outcome of predicate-driven removal at one level: the surviving children
(with their processed subtrees), the removed nodes in encounter order, the
remaining removal budget, and the trace of nodes passed to the filter. -/
structure RemRes where
  kept : List Node
  removed : List Node
  budget : Nat
  tested : List Node

mutual

/-- Modelled from the spec: the body of `remove_items_with` is not in the
provided sources; following the specification, a non-matching container is
recursed into, its child list replaced by the surviving children. -/
def removeN (p : Node → Bool) (k : Nat) : Node → Node × List Node × Nat × List Node
  | .mk i cs =>
    let r := removeL p k cs
    (.mk i r.kept, r.removed, r.budget, r.tested)

/-- Modelled from the spec: walk the children in order with the remaining
global budget; a matching child is detached whole (its descendants are not
tested); a non-matching child is recursed into; a zero budget stops
immediately, leaving the rest untouched. -/
def removeL (p : Node → Bool) (k : Nat) : List Node → RemRes
  | [] => ⟨[], [], k, []⟩
  | c :: cs =>
    if k = 0 then ⟨c :: cs, [], 0, []⟩
    else if p c then
      let r := removeL p (k - 1) cs
      ⟨r.kept, c :: r.removed, r.budget, c :: r.tested⟩
    else
      match removeN p k c with
      | (c2, rm, k2, ts) =>
        let r := removeL p k2 cs
        ⟨c2 :: r.kept, rm ++ r.removed, r.budget, c :: (ts ++ r.tested)⟩

end

/-- Modelled from the spec: `remove_items_with` removes the items contained
by this instance which match the filter, honouring the removal budget
globally across the whole subtree, and returns the surviving forest paired
with the removed nodes in pre-order encounter order. -/
def remove_items_with (T : List Node) (p : Node → Bool) (k : Nat) :
    List Node × List Node :=
  ((removeL p k T).kept, (removeL p k T).removed)

/-- Modelled from the spec: `remove_items_with` invoked on an instance that
is itself an item operates on that item's contents; the instance itself is
not considered by the filter. -/
def item_remove_items_with (n : Node) (p : Node → Bool) (k : Nat) :
    Node × List Node :=
  (.mk n.id (removeL p k n.children).kept, (removeL p k n.children).removed)

mutual

/-- Modelled from the spec: the body of `remove_item` is not in the provided
sources; following the specification, locate the target by identity with the
same walk, short-circuiting on the first match, detach it and re-link the
remaining children; none models the precondition violation (target not
contained), on which the engine aborts the operation. -/
def removeItemN (tid : Nat) : Node → Option (Node × Node)
  | .mk i cs =>
    match removeItemL tid cs with
    | some (n, cs2) => some (n, .mk i cs2)
    | none => none

/-- Modelled from the spec: detach the first node with the target identity
from a forest, in pre-order. -/
def removeItemL (tid : Nat) : List Node → Option (Node × List Node)
  | [] => none
  | c :: cs =>
    if c.id = tid then some (c, cs)
    else
      match removeItemN tid c with
      | some (n, c2) => some (n, c2 :: cs)
      | none =>
        match removeItemL tid cs with
        | some (n, cs2) => some (n, c :: cs2)
        | none => none

end

/-- Modelled from the spec: `remove_item` removes and returns the item which
must be contained by this instance; none models the loud failure on a
precondition violation rather than a silent sentinel result. -/
def remove_item (T : List Node) (tid : Nat) : Option (Node × List Node) :=
  removeItemL tid T

mutual

/-- Simultaneous induction over nodes: node part. -/
def indN (P : Node → Prop) (Q : List Node → Prop)
    (hmk : ∀ i cs, Q cs → P (.mk i cs))
    (hnil : Q [])
    (hcons : ∀ c cs, P c → Q cs → Q (c :: cs)) : ∀ n, P n
  | .mk i cs => hmk i cs (indL P Q hmk hnil hcons cs)

/-- Simultaneous induction over nodes: forest part. -/
def indL (P : Node → Prop) (Q : List Node → Prop)
    (hmk : ∀ i cs, Q cs → P (.mk i cs))
    (hnil : Q [])
    (hcons : ∀ c cs, P c → Q cs → Q (c :: cs)) : ∀ l, Q l
  | [] => hnil
  | c :: cs => hcons c cs (indN P Q hmk hnil hcons c) (indL P Q hmk hnil hcons cs)

end

/-- A VisitResponse other than SKIP is NEXT or ABORT. -/
theorem visitResponse_cases (v : VisitResponse) (h : v ≠ .SKIP) :
    v = .NEXT ∨ v = .ABORT := by
  cases v
  · exact Or.inr rfl
  · exact Or.inl rfl
  · exact absurd rfl h

/-- The visit of a subtree or forest never propagates SKIP. -/
theorem visit_ne_skip :
    (∀ n : Node, ∀ (f : Node → Option Node → VisitResponse) par,
      (visitN f par n).1 ≠ .SKIP)
    ∧ (∀ l : List Node, ∀ (f : Node → Option Node → VisitResponse) par,
      (visitL f par l).1 ≠ .SKIP) := by
  constructor
  all_goals
    first
    | exact indN (fun n => ∀ f par, (visitN f par n).1 ≠ .SKIP)
        (fun l => ∀ f par, (visitL f par l).1 ≠ .SKIP)
        (by
          intro i cs ih f par
          cases hf : f (.mk i cs) par <;> simp [visitN, hf, ih f])
        (by intro f par; simp [visitL])
        (by
          intro c cs ihc ihl f par
          cases hr : (visitN f par c).1 <;>
            simp [visitL, hr, ihl f par])
    | exact indL (fun n => ∀ f par, (visitN f par n).1 ≠ .SKIP)
        (fun l => ∀ f par, (visitL f par l).1 ≠ .SKIP)
        (by
          intro i cs ih f par
          cases hf : f (.mk i cs) par <;> simp [visitN, hf, ih f])
        (by intro f par; simp [visitL])
        (by
          intro c cs ihc ihl f par
          cases hr : (visitN f par c).1 <;>
            simp [visitL, hr, ihl f par])

/-- The lightweight visit of a subtree or forest never propagates SKIP. -/
theorem visit1_ne_skip :
    (∀ n : Node, ∀ f : Node → VisitResponse, (visit1N f n).1 ≠ .SKIP)
    ∧ (∀ l : List Node, ∀ f : Node → VisitResponse, (visit1L f l).1 ≠ .SKIP) := by
  constructor
  all_goals
    first
    | exact indN (fun n => ∀ f, (visit1N f n).1 ≠ .SKIP)
        (fun l => ∀ f, (visit1L f l).1 ≠ .SKIP)
        (by
          intro i cs ih f
          cases hf : f (.mk i cs) <;> simp [visit1N, hf, ih f])
        (by intro f; simp [visit1L])
        (by
          intro c cs ihc ihl f
          cases hr : (visit1N f c).1 <;>
            simp [visit1L, hr, ihl f])
    | exact indL (fun n => ∀ f, (visit1N f n).1 ≠ .SKIP)
        (fun l => ∀ f, (visit1L f l).1 ≠ .SKIP)
        (by
          intro i cs ih f
          cases hf : f (.mk i cs) <;> simp [visit1N, hf, ih f])
        (by intro f; simp [visit1L])
        (by
          intro c cs ihc ihl f
          cases hr : (visit1N f c).1 <;>
            simp [visit1L, hr, ihl f])

/-- C5: for every tree and decision function, the value returned by a
top-level visit call (visit_items, visit_items_with_parent, and their const
variants) is always either NEXT or ABORT, never SKIP; a SKIP produced by the
decision function only suppresses descent at the node that produced it
(that node alone is traced and the caller proceeds with NEXT) and does not
propagate out of the call. -/
theorem visit_top_level_never_skip
    (T : List Node) (f : Node → Option Node → VisitResponse)
    (g : Node → VisitResponse) :
    ((visit_items_with_parent T f = .NEXT ∨ visit_items_with_parent T f = .ABORT)
      ∧ (visit_items_with_parent_const T f = .NEXT
          ∨ visit_items_with_parent_const T f = .ABORT)
      ∧ (visit_items T g = .NEXT ∨ visit_items T g = .ABORT)
      ∧ (visit_items_const T g = .NEXT ∨ visit_items_const T g = .ABORT))
    ∧ (∀ n par, f n par = .SKIP → visitN f par n = (.NEXT, [(n, par)])) := by
  refine ⟨⟨?_, ?_, ?_, ?_⟩, ?_⟩
  · exact visitResponse_cases _ (visit_ne_skip.2 T f none)
  · exact visitResponse_cases _ (visit_ne_skip.2 T f none)
  · exact visitResponse_cases _ (visit1_ne_skip.2 T g)
  · exact visitResponse_cases _ (visit1_ne_skip.2 T g)
  · intro n par hskip
    cases n with
    | mk i cs => simp [visitN, hskip]

/-- Concrete instantiation of `visit_top_level_never_skip`: a decision
function that skips the container with identity 1. -/
def exSkipF : Node → Option Node → VisitResponse :=
  fun n _ => if n.id = 1 then .SKIP else .NEXT

/-- Concrete container node skipped by `exSkipF`. -/
def exSkipNode : Node :=
  .mk 1 [.mk 2 [], .mk 3 []]

/-- Witness for C5 at a concrete tree: the SKIP hypothesis holds at the
container with identity 1 and descent there is suppressed. -/
theorem visit_top_level_never_skip_witness :
    exSkipF exSkipNode none = .SKIP ∧
    visitN exSkipF none exSkipNode = (.NEXT, [(exSkipNode, none)]) :=
  ⟨by decide,
    (visit_top_level_never_skip [exSkipNode] exSkipF (fun _ => .NEXT)).2
      exSkipNode none (by decide)⟩

/-- The lightweight visit equals the parent-aware visit applied to the
callback that discards the parent: same response and, parent components
dropped, the same trace. -/
theorem visit1_eq_visit :
    (∀ n : Node, ∀ (f : Node → VisitResponse) par,
      visit1N f n = ((visitN (fun m _ => f m) par n).1,
        (visitN (fun m _ => f m) par n).2.map Prod.fst))
    ∧ (∀ l : List Node, ∀ (f : Node → VisitResponse) par,
      visit1L f l = ((visitL (fun m _ => f m) par l).1,
        (visitL (fun m _ => f m) par l).2.map Prod.fst)) := by
  have hmk : ∀ i cs,
      (∀ (f : Node → VisitResponse) par,
        visit1L f cs = ((visitL (fun m _ => f m) par cs).1,
          (visitL (fun m _ => f m) par cs).2.map Prod.fst)) →
      ∀ (f : Node → VisitResponse) par,
        visit1N f (.mk i cs) = ((visitN (fun m _ => f m) par (.mk i cs)).1,
          (visitN (fun m _ => f m) par (.mk i cs)).2.map Prod.fst) := by
    intro i cs ih f par
    cases hf : f (.mk i cs) <;>
      simp [visit1N, visitN, hf, ih f (some (.mk i cs))]
  have hnil : ∀ (f : Node → VisitResponse) par,
      visit1L f [] = ((visitL (fun m _ => f m) par []).1,
        (visitL (fun m _ => f m) par []).2.map Prod.fst) := by
    intro f par
    simp [visit1L, visitL]
  have hcons : ∀ c cs,
      (∀ (f : Node → VisitResponse) par,
        visit1N f c = ((visitN (fun m _ => f m) par c).1,
          (visitN (fun m _ => f m) par c).2.map Prod.fst)) →
      (∀ (f : Node → VisitResponse) par,
        visit1L f cs = ((visitL (fun m _ => f m) par cs).1,
          (visitL (fun m _ => f m) par cs).2.map Prod.fst)) →
      ∀ (f : Node → VisitResponse) par,
        visit1L f (c :: cs) = ((visitL (fun m _ => f m) par (c :: cs)).1,
          (visitL (fun m _ => f m) par (c :: cs)).2.map Prod.fst) := by
    intro c cs ihc ihl f par
    have h1 : (visit1N f c).1 = (visitN (fun m _ => f m) par c).1 := by
      rw [ihc f par]
    cases hr : (visitN (fun m _ => f m) par c).1 <;>
      simp [visit1L, visitL, hr, h1, ihc f par, ihl f par]
  exact ⟨fun n => indN _ _ hmk hnil hcons n, fun l => indL _ _ hmk hnil hcons l⟩

/-- Shape of a visit outcome: when the propagated response is ABORT the
decision function returned ABORT exactly at the last traced call, and at no
earlier one; when it is not ABORT, no traced call returned ABORT. -/
def AbortProp (f : Node → Option Node → VisitResponse)
    (r : VisitResponse × List (Node × Option Node)) : Prop :=
  (r.1 = .ABORT → ∃ t x, r.2 = t ++ [x]
    ∧ (∀ pr ∈ t, f pr.1 pr.2 ≠ .ABORT) ∧ f x.1 x.2 = .ABORT)
  ∧ (r.1 ≠ .ABORT → ∀ pr ∈ r.2, f pr.1 pr.2 ≠ .ABORT)

/-- Every visit outcome satisfies `AbortProp`. -/
theorem visit_abort_only_last :
    (∀ (n : Node) (f : Node → Option Node → VisitResponse) (par : Option Node),
      AbortProp f (visitN f par n))
    ∧ (∀ (l : List Node) (f : Node → Option Node → VisitResponse) (par : Option Node),
      AbortProp f (visitL f par l)) := by
  have hmk : ∀ i cs,
      (∀ f par, AbortProp f (visitL f par cs)) →
      ∀ f par, AbortProp f (visitN f par (.mk i cs)) := by
    intro i cs ih f par
    cases hf : f (.mk i cs) par
    · constructor
      · intro _
        refine ⟨[], (.mk i cs, par), by simp [visitN, hf], by simp, by simp [hf]⟩
      · intro hne
        exact absurd (by simp [visitN, hf]) hne
    · have ihcs := ih f (some (.mk i cs))
      constructor
      · intro hab
        have hab2 : (visitL f (some (.mk i cs)) cs).1 = .ABORT := by
          simpa [visitN, hf] using hab
        obtain ⟨t, x, ht, hall, hx⟩ := ihcs.1 hab2
        refine ⟨(.mk i cs, par) :: t, x, by simp [visitN, hf, ht], ?_, hx⟩
        intro pr hpr
        rcases List.mem_cons.mp hpr with h | h
        · rw [h]; simp [hf]
        · exact hall pr h
      · intro hne pr hpr
        have hmem : pr = (.mk i cs, par) ∨ pr ∈ (visitL f (some (.mk i cs)) cs).2 := by
          simpa [visitN, hf] using hpr
        rcases hmem with h | h
        · rw [h]; simp [hf]
        · have hne2 : (visitL f (some (.mk i cs)) cs).1 ≠ .ABORT := by
            intro hcontra
            exact hne (by simpa [visitN, hf] using hcontra)
          exact ihcs.2 hne2 pr h
    · constructor
      · intro hab
        exact absurd hab (by simp [visitN, hf])
      · intro _ pr hpr
        have hmem : pr = (.mk i cs, par) := by simpa [visitN, hf] using hpr
        rw [hmem]; simp [hf]
  have hnil : ∀ (f : Node → Option Node → VisitResponse) par,
      AbortProp f (visitL f par ([] : List Node)) := by
    intro f par
    constructor
    · intro hab; simp [visitL] at hab
    · intro _ pr hpr; simp [visitL] at hpr
  have hcons : ∀ c cs,
      (∀ f par, AbortProp f (visitN f par c)) →
      (∀ f par, AbortProp f (visitL f par cs)) →
      ∀ f par, AbortProp f (visitL f par (c :: cs)) := by
    intro c cs ihc ihl f par
    have hstep : (visitN f par c).1 ≠ .ABORT →
        visitL f par (c :: cs)
          = ((visitL f par cs).1, (visitN f par c).2 ++ (visitL f par cs).2) →
        AbortProp f (visitL f par (c :: cs)) := by
      intro hne heq
      rw [heq]
      constructor
      · intro hab
        obtain ⟨t, x, ht, hall, hx⟩ := (ihl f par).1 hab
        refine ⟨(visitN f par c).2 ++ t, x, by simp [ht], ?_, hx⟩
        intro pr hpr
        rcases List.mem_append.mp hpr with h | h
        · exact (ihc f par).2 hne pr h
        · exact hall pr h
      · intro hne2 pr hpr
        rcases List.mem_append.mp hpr with h | h
        · exact (ihc f par).2 hne pr h
        · exact (ihl f par).2 hne2 pr h
    cases hr : (visitN f par c).1
    · constructor
      · intro _
        obtain ⟨t, x, ht, hall, hx⟩ := (ihc f par).1 hr
        exact ⟨t, x, by simp [visitL, hr, ht], hall, hx⟩
      · intro hne
        exact absurd (by simp [visitL, hr]) hne
    · exact hstep (by simp [hr]) (by simp [visitL, hr])
    · exact hstep (by simp [hr]) (by simp [visitL, hr])
  exact ⟨fun n => indN _ _ hmk hnil hcons n, fun l => indL _ _ hmk hnil hcons l⟩

/-- Decision function of the flat 5-node example: ABORT on identity 2. -/
def exAbortF : Node → Option Node → VisitResponse :=
  fun n _ => if n.id = 2 then .ABORT else .NEXT

/-- Flat single-level tree with five nodes. -/
def exFiveFlat : List Node :=
  [.mk 1 [], .mk 2 [], .mk 3 [], .mk 4 [], .mk 5 []]

/-- C6: once the decision function returns ABORT at some node, no further
node is passed to it: every traced call before the last returned a response
other than ABORT, so ABORT short-circuits all remaining siblings at every
level; in particular on the flat five-node tree with ABORT at the second
node exactly the first two nodes are passed to the decision function. -/
theorem visit_abort_stops_traversal :
    (∀ (T : List Node) (f : Node → Option Node → VisitResponse)
      (pr : Node × Option Node), pr ∈ ((visitL f none T).2).dropLast →
        f pr.1 pr.2 ≠ .ABORT)
    ∧ (visitL exAbortF none exFiveFlat).2.map (fun pr => pr.1.id) = [1, 2] := by
  constructor
  · intro T f pr hpr
    rcases (visit_abort_only_last.2 T f none) with ⟨hab, hnab⟩
    by_cases h1 : (visitL f none T).1 = .ABORT
    · obtain ⟨t, x, ht, hall, _⟩ := hab h1
      rw [ht, List.dropLast_concat] at hpr
      exact hall pr hpr
    · exact hnab h1 pr (List.dropLast_sublist _ |>.subset hpr)
  · decide

/-- Witness for C6: on the flat five-node tree the first traced call is on
the node with identity 1 and did not return ABORT. -/
theorem visit_abort_stops_traversal_witness :
    ((Node.mk 1 [], (none : Option Node))
        ∈ ((visitL exAbortF none exFiveFlat).2).dropLast)
    ∧ exAbortF (.mk 1 []) none ≠ .ABORT :=
  ⟨by decide,
    visit_abort_stops_traversal.1 exFiveFlat exAbortF (.mk 1 [], none) (by decide)⟩

/-- C10: for every tree and callback f, the lightweight visit_items visits
exactly the same nodes in the same order and returns the same VisitResponse
as visit_items_with_parent called with the callback that discards the parent
argument; the same equivalence holds between the const variants. -/
theorem visit_items_equiv_visit_items_with_parent
    (T : List Node) (f : Node → VisitResponse) :
    visit_items T f = visit_items_with_parent T (fun n _ => f n)
    ∧ (visit1L f T).2 = (visitL (fun n _ => f n) none T).2.map Prod.fst
    ∧ visit_items_const T f = visit_items_with_parent_const T (fun n _ => f n) := by
  have h := visit1_eq_visit.2 T f none
  refine ⟨?_, ?_, ?_⟩
  · show (visit1L f T).1 = (visitL (fun n _ => f n) none T).1
    rw [h]
  · rw [h]
  · show (visit1L f T).1 = (visitL (fun n _ => f n) none T).1
    rw [h]

mutual

/-- Number of maximal matches in a subtree: nodes satisfying the filter
none of whose proper ancestors within the subtree satisfies it (a matching
node counts as one and shields its descendants). -/
def mmN (p : Node → Bool) : Node → Nat
  | .mk i cs => if p (.mk i cs) then 1 else mmL p cs

/-- Number of maximal matches in a forest. -/
def mmL (p : Node → Bool) : List Node → Nat
  | [] => 0
  | c :: cs => mmN p c + mmL p cs

end

/-- Permuting a block past one to its left inside an append. -/
theorem perm_middle_swap {α : Type} (a b c : List α) :
    (a ++ (b ++ c)).Perm (b ++ (a ++ c)) := by
  rw [← List.append_assoc, ← List.append_assoc]
  exact List.perm_append_comm.append_right c

/-- Predicate-driven removal conserves node identities: the pre-order
identities of the input are a permutation of the identities of the surviving
forest followed by those of the removed subtrees. -/
theorem remove_conserves :
    (∀ (n : Node) (p : Node → Bool) (k : Nat),
      (idsN n).Perm
        (idsN (removeN p k n).1 ++ ((removeN p k n).2.1.map idsN).flatten))
    ∧ ∀ (l : List Node) (p : Node → Bool) (k : Nat),
      (idsL l).Perm
        (idsL (removeL p k l).kept ++ ((removeL p k l).removed.map idsN).flatten) := by
  have hmk : ∀ i cs,
      (∀ p k, (idsL cs).Perm
        (idsL (removeL p k cs).kept ++ ((removeL p k cs).removed.map idsN).flatten)) →
      ∀ p k, (idsN (Node.mk i cs)).Perm
        (idsN (removeN p k (.mk i cs)).1
          ++ (((removeN p k (.mk i cs)).2.1.map idsN).flatten)) := by
    intro i cs ih p k
    simpa [removeN, idsN] using (ih p k).cons i
  have hnil : ∀ (p : Node → Bool) (k : Nat),
      (idsL ([] : List Node)).Perm
        (idsL (removeL p k []).kept ++ ((removeL p k []).removed.map idsN).flatten) := by
    intro p k
    simp [removeL, idsL]
  have hcons : ∀ c cs,
      (∀ p k, (idsN c).Perm
        (idsN (removeN p k c).1 ++ ((removeN p k c).2.1.map idsN).flatten)) →
      (∀ p k, (idsL cs).Perm
        (idsL (removeL p k cs).kept ++ ((removeL p k cs).removed.map idsN).flatten)) →
      ∀ p k, (idsL (c :: cs)).Perm
        (idsL (removeL p k (c :: cs)).kept
          ++ ((removeL p k (c :: cs)).removed.map idsN).flatten) := by
    intro c cs ihc ihl p k
    by_cases hk : k = 0
    · subst hk
      simp [removeL]
    · by_cases hpc : p c
      · have h := ihl p (k - 1)
        simp only [removeL, hk, hpc, if_false, if_true, idsL, List.map_cons,
          List.flatten_cons, ite_false, ite_true]
        exact (h.append_left (idsN c)).trans (perm_middle_swap _ _ _)
      · rcases hrc : removeN p k c with ⟨c2, rm, k2, ts⟩
        have hc := ihc p k
        rw [hrc] at hc
        have h := ihl p k2
        simp [removeL, hk, hpc, hrc, idsL]
        refine List.Perm.trans ?_ ((perm_middle_swap _ _ _).append_left (idsN c2))
        simpa using hc.append h
  exact ⟨fun n => indN _ _ hmk hnil hcons n, fun l => indL _ _ hmk hnil hcons l⟩

/-- Every node has its own identity at the head of its pre-order identities. -/
theorem id_mem_idsN (n : Node) : n.id ∈ idsN n := by
  cases n with
  | mk i cs => simp [idsN, Node.id]

/-- Removal with an exhausted budget leaves the forest untouched. -/
theorem removeL_zero (p : Node → Bool) (l : List Node) :
    removeL p 0 l = ⟨l, [], 0, []⟩ := by
  cases l <;> simp [removeL]

/-- Removal at a matching child with budget available: the child is detached
whole and the walk continues with the remaining siblings and one fewer
budget; only the child itself is tested. -/
theorem removeL_cons_match (p : Node → Bool) {k : Nat} (hk : k ≠ 0) {c : Node}
    (hpc : p c = true) (cs : List Node) :
    removeL p k (c :: cs)
      = ⟨(removeL p (k - 1) cs).kept, c :: (removeL p (k - 1) cs).removed,
          (removeL p (k - 1) cs).budget, c :: (removeL p (k - 1) cs).tested⟩ := by
  simp [removeL, hk, hpc]

/-- Removal at a non-matching child with budget available: the walk recurses
into the child, then continues with the remaining siblings on the budget the
child's subtree left over. -/
theorem removeL_cons_nomatch (p : Node → Bool) {k : Nat} (hk : k ≠ 0) {c : Node}
    (hpc : p c = false) (cs : List Node) :
    removeL p k (c :: cs)
      = ⟨(removeN p k c).1 :: (removeL p (removeN p k c).2.2.1 cs).kept,
          (removeN p k c).2.1 ++ (removeL p (removeN p k c).2.2.1 cs).removed,
          (removeL p (removeN p k c).2.2.1 cs).budget,
          c :: ((removeN p k c).2.2.2 ++ (removeL p (removeN p k c).2.2.1 cs).tested)⟩ := by
  rcases hrc : removeN p k c with ⟨c2, rm, k2, ts⟩
  simp [removeL, hk, hpc, hrc]

/-- Removal over an empty child list does nothing. -/
theorem removeL_nil (p : Node → Bool) (k : Nat) :
    removeL p k [] = ⟨[], [], k, []⟩ := by
  simp [removeL]

/-- Unfolding of removal on a node: recurse into the children. -/
theorem removeN_eq (p : Node → Bool) (k : Nat) (i : Nat) (cs : List Node) :
    removeN p k (.mk i cs)
      = (.mk i (removeL p k cs).kept, (removeL p k cs).removed,
          (removeL p k cs).budget, (removeL p k cs).tested) := by
  simp [removeN]

/-- The pre-order identities of the surviving forest form a sublist of the
input's pre-order identities: relative order of survivors is preserved. -/
theorem remove_kept_sublist :
    (∀ (n : Node) (p : Node → Bool) (k : Nat),
      idsN (removeN p k n).1 <+ idsN n)
    ∧ ∀ (l : List Node) (p : Node → Bool) (k : Nat),
      idsL (removeL p k l).kept <+ idsL l := by
  have hmk : ∀ i cs,
      (∀ p k, idsL (removeL p k cs).kept <+ idsL cs) →
      ∀ p k, idsN (removeN p k (.mk i cs)).1 <+ idsN (Node.mk i cs) := by
    intro i cs ih p k
    simpa [removeN, idsN] using (ih p k).cons₂ i
  have hnil : ∀ (p : Node → Bool) (k : Nat),
      idsL (removeL p k []).kept <+ idsL ([] : List Node) := by
    intro p k
    simp [removeL]
  have hcons : ∀ c cs,
      (∀ p k, idsN (removeN p k c).1 <+ idsN c) →
      (∀ p k, idsL (removeL p k cs).kept <+ idsL cs) →
      ∀ p k, idsL (removeL p k (c :: cs)).kept <+ idsL (c :: cs) := by
    intro c cs ihc ihl p k
    by_cases hk : k = 0
    · subst hk
      rw [removeL_zero]
    · by_cases hpc : p c
      · rw [removeL_cons_match p hk hpc cs]
        simp only [idsL]
        exact (ihl p (k - 1)).trans (List.sublist_append_right _ _)
      · have hpc2 : p c = false := by simpa using hpc
        rw [removeL_cons_nomatch p hk hpc2 cs]
        simp only [idsL]
        exact (ihc p k).append (ihl p (removeN p k c).2.2.1)
  exact ⟨fun n => indN _ _ hmk hnil hcons n, fun l => indL _ _ hmk hnil hcons l⟩

/-- The concatenated pre-order identities of the removed subtrees form a
sublist of the input's pre-order identities: the removed sequence respects
pre-order, left-to-right encounter order. -/
theorem remove_removed_sublist :
    (∀ (n : Node) (p : Node → Bool) (k : Nat),
      ((removeN p k n).2.1.map idsN).flatten <+ idsN n)
    ∧ ∀ (l : List Node) (p : Node → Bool) (k : Nat),
      ((removeL p k l).removed.map idsN).flatten <+ idsL l := by
  have hmk : ∀ i cs,
      (∀ p k, ((removeL p k cs).removed.map idsN).flatten <+ idsL cs) →
      ∀ p k, ((removeN p k (.mk i cs)).2.1.map idsN).flatten <+ idsN (Node.mk i cs) := by
    intro i cs ih p k
    simp only [removeN, idsN]
    exact (ih p k).trans (List.sublist_cons_self i (idsL cs))
  have hnil : ∀ (p : Node → Bool) (k : Nat),
      ((removeL p k []).removed.map idsN).flatten <+ idsL ([] : List Node) := by
    intro p k
    simp [removeL]
  have hcons : ∀ c cs,
      (∀ p k, ((removeN p k c).2.1.map idsN).flatten <+ idsN c) →
      (∀ p k, ((removeL p k cs).removed.map idsN).flatten <+ idsL cs) →
      ∀ p k, ((removeL p k (c :: cs)).removed.map idsN).flatten <+ idsL (c :: cs) := by
    intro c cs ihc ihl p k
    by_cases hk : k = 0
    · subst hk
      rw [removeL_zero]
      simp
    · by_cases hpc : p c
      · rw [removeL_cons_match p hk hpc cs]
        simp only [idsL, List.map_cons, List.flatten_cons]
        exact (ihl p (k - 1)).append_left (idsN c)
      · have hpc2 : p c = false := by simpa using hpc
        rw [removeL_cons_nomatch p hk hpc2 cs]
        simp only [idsL, List.map_append, List.flatten_append]
        exact (ihc p k).append (ihl p (removeN p k c).2.2.1)
  exact ⟨fun n => indN _ _ hmk hnil hcons n, fun l => indL _ _ hmk hnil hcons l⟩

/-- Every node passed to the removal filter belongs to the walked forest. -/
theorem remove_tested_mem :
    (∀ (n : Node) (p : Node → Bool) (k : Nat) (t : Node),
      t ∈ (removeN p k n).2.2.2 → t.id ∈ idsN n)
    ∧ ∀ (l : List Node) (p : Node → Bool) (k : Nat) (t : Node),
      t ∈ (removeL p k l).tested → t.id ∈ idsL l := by
  have hmk : ∀ i cs,
      (∀ p k t, t ∈ (removeL p k cs).tested → t.id ∈ idsL cs) →
      ∀ p k t, t ∈ (removeN p k (.mk i cs)).2.2.2 → t.id ∈ idsN (Node.mk i cs) := by
    intro i cs ih p k t ht
    simp only [removeN] at ht
    simp only [idsN, List.mem_cons]
    exact Or.inr (ih p k t ht)
  have hnil : ∀ (p : Node → Bool) (k : Nat) (t : Node),
      t ∈ (removeL p k []).tested → t.id ∈ idsL ([] : List Node) := by
    intro p k t ht
    simp [removeL] at ht
  have hcons : ∀ c cs,
      (∀ p k t, t ∈ (removeN p k c).2.2.2 → t.id ∈ idsN c) →
      (∀ p k t, t ∈ (removeL p k cs).tested → t.id ∈ idsL cs) →
      ∀ p k t, t ∈ (removeL p k (c :: cs)).tested → t.id ∈ idsL (c :: cs) := by
    intro c cs ihc ihl p k t ht
    by_cases hk : k = 0
    · subst hk
      rw [removeL_zero] at ht
      simp at ht
    · simp only [idsL, List.mem_append]
      by_cases hpc : p c
      · rw [removeL_cons_match p hk hpc cs] at ht
        simp only [List.mem_cons] at ht
        rcases ht with h | h
        · exact Or.inl (h ▸ id_mem_idsN c)
        · exact Or.inr (ihl p (k - 1) t h)
      · have hpc2 : p c = false := by simpa using hpc
        rw [removeL_cons_nomatch p hk hpc2 cs] at ht
        simp only [List.mem_cons, List.mem_append] at ht
        rcases ht with h | h | h
        · exact Or.inl (h ▸ id_mem_idsN c)
        · exact Or.inl (ihc p k t h)
        · exact Or.inr (ihl p (removeN p k c).2.2.1 t h)
  exact ⟨fun n => indN _ _ hmk hnil hcons n, fun l => indL _ _ hmk hnil hcons l⟩

/-- C1: with an unbounded limit, remove_items_with conserves nodes: the
multiset of node identities in the tree before the call equals the union of
the surviving identities and the identities inside the returned removed
subtrees, with no duplication or loss; the removed subtrees appear in
pre-order left-to-right traversal order (their concatenated identities form
a sublist of the original pre-order), the relative order of surviving
siblings is preserved (the surviving pre-order is a sublist of the
original), and no removed node is still linked anywhere in the surviving
tree, so no parent retains a slot for a removed child. -/
theorem remove_items_with_conserves
    (T : List Node) (p : Node → Bool) (k : Nat)
    (_hk : sizeL T ≤ k) (hnd : (idsL T).Nodup) :
    ((idsL T : Multiset Nat)
      = ↑(idsL (remove_items_with T p k).1)
        + ↑(((remove_items_with T p k).2.map idsN).flatten))
    ∧ ((remove_items_with T p k).2.map idsN).flatten <+ idsL T
    ∧ idsL (remove_items_with T p k).1 <+ idsL T
    ∧ ∀ r ∈ (remove_items_with T p k).2, r.id ∉ idsL (remove_items_with T p k).1 := by
  have hperm := remove_conserves.2 T p k
  refine ⟨?_, remove_removed_sublist.2 T p k, remove_kept_sublist.2 T p k, ?_⟩
  · rw [Multiset.coe_add]
    exact Multiset.coe_eq_coe.mpr hperm
  · intro r hr hmem
    have hnd2 : (idsL (removeL p k T).kept
        ++ ((removeL p k T).removed.map idsN).flatten).Nodup := hperm.nodup hnd
    have hdisj := (List.nodup_append.mp hnd2).2.2
    have hrid : r.id ∈ ((removeL p k T).removed.map idsN).flatten :=
      List.mem_flatten.mpr ⟨idsN r, List.mem_map_of_mem idsN hr, id_mem_idsN r⟩
    exact hdisj hmem hrid

/-- Concrete tree for the removal witnesses: node 1 containing node 2, and
node 3 beside it. -/
def exT1 : List Node :=
  [.mk 1 [.mk 2 []], .mk 3 []]

/-- Concrete removal filter matching exactly the node with identity 2. -/
def exP1 : Node → Bool :=
  fun n => n.id == 2

/-- Witness for C1 at a concrete tree, filter and unbounded budget. -/
theorem remove_items_with_conserves_witness :
    (sizeL exT1 ≤ 3 ∧ (idsL exT1).Nodup)
    ∧ (((idsL exT1 : Multiset Nat)
        = ↑(idsL (remove_items_with exT1 exP1 3).1)
          + ↑(((remove_items_with exT1 exP1 3).2.map idsN).flatten))
      ∧ ((remove_items_with exT1 exP1 3).2.map idsN).flatten <+ idsL exT1
      ∧ idsL (remove_items_with exT1 exP1 3).1 <+ idsL exT1
      ∧ ∀ r ∈ (remove_items_with exT1 exP1 3).2,
          r.id ∉ idsL (remove_items_with exT1 exP1 3).1) :=
  ⟨⟨by decide, by decide⟩,
    remove_items_with_conserves exT1 exP1 3 (by decide) (by decide)⟩

mutual

/-- Total number of nodes in a subtree satisfying the filter, descendants
of matching nodes included. -/
def cmN (p : Node → Bool) : Node → Nat
  | .mk i cs => (if p (.mk i cs) then 1 else 0) + cmL p cs

/-- Total number of nodes in a forest satisfying the filter. -/
def cmL (p : Node → Bool) : List Node → Nat
  | [] => 0
  | c :: cs => cmN p c + cmL p cs

end

/-- Unfolding of the maximal-match count on an abstract node. -/
theorem mmN_eq (p : Node → Bool) (n : Node) :
    mmN p n = if p n then 1 else mmL p n.children := by
  cases n with
  | mk i cs => simp [mmN, Node.children]

/-- The number of removed nodes is the budget capped by the number of
maximal matches, and the remaining budget is the input budget less the
number of removed nodes. -/
theorem remove_len :
    (∀ (n : Node) (p : Node → Bool) (k : Nat),
      (removeN p k n).2.1.length = min k (mmL p n.children)
        ∧ (removeN p k n).2.2.1 = k - (removeN p k n).2.1.length)
    ∧ ∀ (l : List Node) (p : Node → Bool) (k : Nat),
      (removeL p k l).removed.length = min k (mmL p l)
        ∧ (removeL p k l).budget = k - (removeL p k l).removed.length := by
  have hmk : ∀ i cs,
      (∀ p k, (removeL p k cs).removed.length = min k (mmL p cs)
        ∧ (removeL p k cs).budget = k - (removeL p k cs).removed.length) →
      ∀ p k, (removeN p k (.mk i cs)).2.1.length = min k (mmL p (Node.mk i cs).children)
        ∧ (removeN p k (.mk i cs)).2.2.1 = k - (removeN p k (.mk i cs)).2.1.length := by
    intro i cs ih p k
    simpa [removeN_eq, Node.children] using ih p k
  have hnil : ∀ (p : Node → Bool) (k : Nat),
      (removeL p k []).removed.length = min k (mmL p ([] : List Node))
        ∧ (removeL p k []).budget = k - (removeL p k []).removed.length := by
    intro p k
    simp [removeL, mmL]
  have hcons : ∀ c cs,
      (∀ p k, (removeN p k c).2.1.length = min k (mmL p c.children)
        ∧ (removeN p k c).2.2.1 = k - (removeN p k c).2.1.length) →
      (∀ p k, (removeL p k cs).removed.length = min k (mmL p cs)
        ∧ (removeL p k cs).budget = k - (removeL p k cs).removed.length) →
      ∀ p k, (removeL p k (c :: cs)).removed.length = min k (mmL p (c :: cs))
        ∧ (removeL p k (c :: cs)).budget = k - (removeL p k (c :: cs)).removed.length := by
    intro c cs ihc ihl p k
    by_cases hk : k = 0
    · subst hk
      rw [removeL_zero]
      simp
    · by_cases hpc : p c
      · rw [removeL_cons_match p hk hpc cs]
        have h := ihl p (k - 1)
        have hm : mmN p c = 1 := by rw [mmN_eq, if_pos hpc]
        simp only [mmL, hm, List.length_cons]
        omega
      · have hpc2 : p c = false := by simpa using hpc
        rw [removeL_cons_nomatch p hk hpc2 cs]
        have hc := ihc p k
        have h := ihl p (removeN p k c).2.2.1
        have hm : mmN p c = mmL p c.children := by
          rw [mmN_eq, if_neg (by simp [hpc2])]
        simp only [mmL, hm, List.length_append]
        omega
  exact ⟨fun n => indN _ _ hmk hnil hcons n, fun l => indL _ _ hmk hnil hcons l⟩

/-- C2 as stated is false: on the tree whose matching container holds a
matching child, an unbounded removal detaches the container whole, removing
one node although two nodes match, so the removed count differs from
min(limit, total number of matching nodes). -/
theorem remove_items_with_min_counterexample :
    ¬ ((remove_items_with [Node.mk 0 [Node.mk 1 []]] (fun _ => true) 2).2.length
        = min 2 (cmL (fun _ => true) [Node.mk 0 [Node.mk 1 []]])) := by
  decide

/-- C2 amended: remove_items_with removes exactly min(k, number of maximal
matching nodes), a maximal matching node being one that satisfies the
filter and has no matching proper ancestor (a matching container is removed
whole and its descendants are not tested); at most k nodes are removed, the
limit being a single global budget across the whole subtree, and with k = 0
the call returns an empty sequence and leaves the tree unmodified. -/
theorem remove_items_with_budget (T : List Node) (p : Node → Bool) (k : Nat) :
    (remove_items_with T p k).2.length = min k (mmL p T)
    ∧ (remove_items_with T p k).2.length ≤ k
    ∧ remove_items_with T p 0 = (T, []) := by
  have h := (remove_len.2 T p k).1
  refine ⟨h, ?_, ?_⟩
  · show (removeL p k T).removed.length ≤ k
    omega
  · simp [remove_items_with, removeL_zero]

/-- C3: a direct child that is itself a container is still tested against
the filter: when the container matches it is removed whole with its subtree
intact (the returned node is the container value unchanged) and it is the
only node of its subtree passed to the filter; when it does not match,
recursion continues into it, removing below it exactly what removing from
its child list would remove, and the filter is passed the container and
then nodes of its subtree. -/
theorem remove_container_child
    (i : Nat) (cs : List Node) (p : Node → Bool) (k : Nat) (hk : k ≠ 0) :
    (p (.mk i cs) = true →
      remove_items_with [.mk i cs] p k = ([], [.mk i cs])
      ∧ (removeL p k [.mk i cs]).tested = [.mk i cs])
    ∧ (p (.mk i cs) = false →
      (remove_items_with [.mk i cs] p k).1
          = [.mk i (remove_items_with cs p k).1]
      ∧ (remove_items_with [.mk i cs] p k).2 = (remove_items_with cs p k).2
      ∧ (removeL p k [.mk i cs]).tested
          = .mk i cs :: (removeL p k cs).tested) := by
  constructor
  · intro hpc
    have h1 : removeL p k [Node.mk i cs]
        = ⟨[], [Node.mk i cs], k - 1, [Node.mk i cs]⟩ := by
      rw [removeL_cons_match p hk hpc, removeL_nil]
    constructor
    · show ((removeL p k [Node.mk i cs]).kept,
          (removeL p k [Node.mk i cs]).removed) = ([], [Node.mk i cs])
      rw [h1]
    · rw [h1]
  · intro hpc
    have h2 : removeL p k [Node.mk i cs]
        = ⟨[Node.mk i (removeL p k cs).kept], (removeL p k cs).removed ++ [],
            (removeL p k cs).budget, Node.mk i cs :: ((removeL p k cs).tested ++ [])⟩ := by
      rw [removeL_cons_nomatch p hk hpc, removeN_eq, removeL_nil]
    refine ⟨?_, ?_, ?_⟩
    · show (removeL p k [Node.mk i cs]).kept = [Node.mk i (removeL p k cs).kept]
      rw [h2]
    · show (removeL p k [Node.mk i cs]).removed = (removeL p k cs).removed
      rw [h2]
      simp
    · rw [h2]
      simp

/-- Witness for C3 at a concrete container: node 1 holding node 2, filter
matching identity 2 only, budget 3. -/
theorem remove_container_child_witness :
    ((3 : Nat) ≠ 0)
    ∧ ((exP1 (.mk 1 [.mk 2 []]) = true →
        remove_items_with [.mk 1 [.mk 2 []]] exP1 3 = ([], [.mk 1 [.mk 2 []]])
        ∧ (removeL exP1 3 [.mk 1 [.mk 2 []]]).tested = [.mk 1 [.mk 2 []]])
      ∧ (exP1 (.mk 1 [.mk 2 []]) = false →
        (remove_items_with [.mk 1 [.mk 2 []]] exP1 3).1
            = [.mk 1 (remove_items_with [Node.mk 2 []] exP1 3).1]
        ∧ (remove_items_with [.mk 1 [.mk 2 []]] exP1 3).2
            = (remove_items_with [Node.mk 2 []] exP1 3).2
        ∧ (removeL exP1 3 [.mk 1 [.mk 2 []]]).tested
            = .mk 1 [.mk 2 []] :: (removeL exP1 3 [Node.mk 2 []]).tested)) :=
  ⟨by decide, remove_container_child 1 [.mk 2 []] exP1 3 (by decide)⟩

/-- C9: when the visitable instance is itself an item, remove_items_with
does not pass the instance to the filter (every tested node has an identity
different from the instance's) and the instance cannot appear in the
returned sequence; only its descendants are candidates. -/
theorem instance_item_not_candidate (n : Node) (p : Node → Bool) (k : Nat)
    (hnd : (idsN n).Nodup) :
    (∀ t ∈ (removeL p k n.children).tested, t.id ≠ n.id)
    ∧ n.id ∉ (item_remove_items_with n p k).2.map Node.id := by
  cases n with
  | mk i cs =>
    have hni : i ∉ idsL cs := by
      rw [show idsN (Node.mk i cs) = i :: idsL cs from rfl] at hnd
      exact (List.nodup_cons.mp hnd).1
    constructor
    · intro t ht heq
      have hmem : t.id ∈ idsL cs :=
        remove_tested_mem.2 cs p k t (by simpa [Node.children] using ht)
      rw [heq] at hmem
      exact hni (by simpa [Node.id] using hmem)
    · intro hmem
      obtain ⟨r, hr, hrid⟩ := List.mem_map.mp
        (by simpa [item_remove_items_with, Node.children] using hmem)
      have h1 : r.id ∈ ((removeL p k cs).removed.map idsN).flatten :=
        List.mem_flatten.mpr ⟨idsN r, List.mem_map_of_mem idsN hr, id_mem_idsN r⟩
      have h2 : r.id ∈ idsL cs := (remove_removed_sublist.2 cs p k).subset h1
      rw [hrid] at h2
      exact hni (by simpa [Node.id] using h2)

/-- Witness for C9 at a concrete item instance: node 1 holding node 2,
filter matching everything, budget 5. -/
theorem instance_item_not_candidate_witness :
    (idsN (Node.mk 1 [.mk 2 []])).Nodup
    ∧ ((∀ t ∈ (removeL (fun _ => true) 5 (Node.mk 1 [.mk 2 []]).children).tested,
          t.id ≠ (Node.mk 1 [.mk 2 []]).id)
      ∧ (Node.mk 1 [.mk 2 []]).id
          ∉ (item_remove_items_with (.mk 1 [.mk 2 []]) (fun _ => true) 5).2.map Node.id) :=
  ⟨by decide, instance_item_not_candidate (.mk 1 [.mk 2 []]) (fun _ => true) 5 (by decide)⟩

/-- A node's pre-order identities start with its own identity. -/
theorem idsN_eq (n : Node) : idsN n = n.id :: idsL n.children := by
  cases n with
  | mk i cs => rfl

/-- The identity search answers membership in the pre-order identities. -/
theorem hasItem_iff (tid : Nat) :
    (∀ n : Node, hasItemN tid n = true ↔ tid ∈ idsN n)
    ∧ ∀ l : List Node, hasItemL tid l = true ↔ tid ∈ idsL l := by
  have hmk : ∀ i cs, (hasItemL tid cs = true ↔ tid ∈ idsL cs) →
      (hasItemN tid (.mk i cs) = true ↔ tid ∈ idsN (Node.mk i cs)) := by
    intro i cs ih
    simp only [hasItemN, Bool.or_eq_true, decide_eq_true_eq, ih, idsN, List.mem_cons]
    exact or_congr eq_comm Iff.rfl
  have hnil : hasItemL tid [] = true ↔ tid ∈ idsL ([] : List Node) := by
    simp [hasItemL, idsL]
  have hcons : ∀ c cs, (hasItemN tid c = true ↔ tid ∈ idsN c) →
      (hasItemL tid cs = true ↔ tid ∈ idsL cs) →
      (hasItemL tid (c :: cs) = true ↔ tid ∈ idsL (c :: cs)) := by
    intro c cs ihc ihl
    simp [hasItemL, idsL, ihc, ihl]
  exact ⟨fun n => indN _ _ hmk hnil hcons n, fun l => indL _ _ hmk hnil hcons l⟩

/-- Single-node removal fails exactly when the target identity is absent. -/
theorem removeItem_none_iff (tid : Nat) :
    (∀ n : Node, removeItemN tid n = none ↔ tid ∉ idsL n.children)
    ∧ ∀ l : List Node, removeItemL tid l = none ↔ tid ∉ idsL l := by
  have hmk : ∀ i cs, (removeItemL tid cs = none ↔ tid ∉ idsL cs) →
      (removeItemN tid (.mk i cs) = none ↔ tid ∉ idsL (Node.mk i cs).children) := by
    intro i cs ih
    cases h : removeItemL tid cs with
    | none => simp [removeItemN, h, Node.children, ih.mp h]
    | some pair =>
      have : ¬(tid ∉ idsL cs) := fun hq => by
        rw [ih.mpr hq] at h
        cases h
      simp [removeItemN, h, Node.children, this]
  have hnil : removeItemL tid [] = none ↔ tid ∉ idsL ([] : List Node) := by
    simp [removeItemL, idsL]
  have hcons : ∀ c cs, (removeItemN tid c = none ↔ tid ∉ idsL c.children) →
      (removeItemL tid cs = none ↔ tid ∉ idsL cs) →
      (removeItemL tid (c :: cs) = none ↔ tid ∉ idsL (c :: cs)) := by
    intro c cs ihc ihl
    by_cases hc : c.id = tid
    · have hmem : tid ∈ idsL (c :: cs) := by
        simp only [idsL, List.mem_append]
        exact Or.inl (hc ▸ id_mem_idsN c)
      simp [removeItemL, hc, hmem]
    · cases h1 : removeItemN tid c with
      | some pair =>
        have h2 : tid ∈ idsL c.children := by
          by_contra hq
          rw [ihc.mpr hq] at h1
          cases h1
        have hmem : tid ∈ idsL (c :: cs) := by
          simp only [idsL, List.mem_append, idsN_eq c, List.mem_cons]
          exact Or.inl (Or.inr h2)
        cases pair with
        | mk n c2 => simp [removeItemL, hc, h1, hmem]
      | none =>
        have h2 : tid ∉ idsL c.children := ihc.mp h1
        cases h3 : removeItemL tid cs with
        | some pair =>
          have h4 : tid ∈ idsL cs := by
            by_contra hq
            rw [ihl.mpr hq] at h3
            cases h3
          have hmem : tid ∈ idsL (c :: cs) := by
            simp only [idsL, List.mem_append]
            exact Or.inr h4
          cases pair with
          | mk n cs2 => simp [removeItemL, hc, h1, h3, hmem]
        | none =>
          have h4 : tid ∉ idsL cs := ihl.mp h3
          have hmem : tid ∉ idsL (c :: cs) := by
            simp only [idsL, List.mem_append, idsN_eq c, List.mem_cons]
            push_neg
            exact ⟨⟨fun he => hc he.symm, h2⟩, h4⟩
          simp [removeItemL, hc, h1, h3, hmem]
  exact ⟨fun n => indN _ _ hmk hnil hcons n, fun l => indL _ _ hmk hnil hcons l⟩

/-- Successful single-node removal returns the target (by identity) and the
re-linked remainder: identities are conserved and the remainder preserves
the original pre-order as a sublist. -/
theorem removeItem_some_spec (tid : Nat) :
    (∀ n : Node, ∀ m n', removeItemN tid n = some (m, n') →
      m.id = tid ∧ (idsN n).Perm (idsN n' ++ idsN m) ∧ idsN n' <+ idsN n)
    ∧ ∀ l : List Node, ∀ m l', removeItemL tid l = some (m, l') →
      m.id = tid ∧ (idsL l).Perm (idsL l' ++ idsN m) ∧ idsL l' <+ idsL l := by
  have hmk : ∀ i cs,
      (∀ m l', removeItemL tid cs = some (m, l') →
        m.id = tid ∧ (idsL cs).Perm (idsL l' ++ idsN m) ∧ idsL l' <+ idsL cs) →
      ∀ m n', removeItemN tid (.mk i cs) = some (m, n') →
        m.id = tid ∧ (idsN (Node.mk i cs)).Perm (idsN n' ++ idsN m)
          ∧ idsN n' <+ idsN (Node.mk i cs) := by
    intro i cs ih m n' hsome
    cases h : removeItemL tid cs with
    | none =>
      simp only [removeItemN, h] at hsome
      exact Option.noConfusion hsome
    | some pair =>
      cases pair with
      | mk mm cs2 =>
        simp only [removeItemN, h, Option.some.injEq, Prod.mk.injEq] at hsome
        obtain ⟨rfl, rfl⟩ := hsome
        obtain ⟨hid, hperm, hsub⟩ := ih mm cs2 h
        refine ⟨hid, ?_, ?_⟩
        · show (i :: idsL cs).Perm (i :: (idsL cs2 ++ idsN mm))
          exact hperm.cons i
        · show i :: idsL cs2 <+ i :: idsL cs
          exact hsub.cons₂ i
  have hnil : ∀ m l', removeItemL tid [] = some (m, l') →
      m.id = tid ∧ (idsL ([] : List Node)).Perm (idsL l' ++ idsN m)
        ∧ idsL l' <+ idsL ([] : List Node) := by
    intro m l' hsome
    rw [removeItemL] at hsome
    cases hsome
  have hcons : ∀ c cs,
      (∀ m n', removeItemN tid c = some (m, n') →
        m.id = tid ∧ (idsN c).Perm (idsN n' ++ idsN m) ∧ idsN n' <+ idsN c) →
      (∀ m l', removeItemL tid cs = some (m, l') →
        m.id = tid ∧ (idsL cs).Perm (idsL l' ++ idsN m) ∧ idsL l' <+ idsL cs) →
      ∀ m l', removeItemL tid (c :: cs) = some (m, l') →
        m.id = tid ∧ (idsL (c :: cs)).Perm (idsL l' ++ idsN m)
          ∧ idsL l' <+ idsL (c :: cs) := by
    intro c cs ihc ihl m l' hsome
    rw [removeItemL] at hsome
    by_cases hc : c.id = tid
    · rw [if_pos hc] at hsome
      simp only [Option.some.injEq, Prod.mk.injEq] at hsome
      obtain ⟨rfl, rfl⟩ := hsome
      exact ⟨hc, List.perm_append_comm, List.sublist_append_right _ _⟩
    · rw [if_neg hc] at hsome
      cases h1 : removeItemN tid c with
      | some pair =>
        cases pair with
        | mk mm c2 =>
          simp only [h1, Option.some.injEq, Prod.mk.injEq] at hsome
          obtain ⟨rfl, rfl⟩ := hsome
          obtain ⟨hid, hperm, hsub⟩ := ihc mm c2 h1
          refine ⟨hid, ?_, ?_⟩
          · show (idsN c ++ idsL cs).Perm ((idsN c2 ++ idsL cs) ++ idsN mm)
            refine List.Perm.trans (hperm.append_right (idsL cs)) ?_
            rw [List.append_assoc, List.append_assoc]
            exact List.perm_append_comm.append_left (idsN c2)
          · show idsN c2 ++ idsL cs <+ idsN c ++ idsL cs
            exact hsub.append (List.Sublist.refl (idsL cs))
      | none =>
        simp only [h1] at hsome
        cases h2 : removeItemL tid cs with
        | some pair =>
          cases pair with
          | mk mm cs2 =>
            simp only [h2, Option.some.injEq, Prod.mk.injEq] at hsome
            obtain ⟨rfl, rfl⟩ := hsome
            obtain ⟨hid, hperm, hsub⟩ := ihl mm cs2 h2
            refine ⟨hid, ?_, ?_⟩
            · show (idsN c ++ idsL cs).Perm ((idsN c ++ idsL cs2) ++ idsN mm)
              rw [List.append_assoc]
              exact hperm.append_left (idsN c)
            · show idsN c ++ idsL cs2 <+ idsN c ++ idsL cs
              exact (List.Sublist.refl (idsN c)).append hsub
        | none =>
          simp only [h2] at hsome
          exact Option.noConfusion hsome
  exact ⟨fun n => indN _ _ hmk hnil hcons n, fun l => indL _ _ hmk hnil hcons l⟩

/-- C4: calling remove_item with a target not contained in the instance is
a precondition violation on which the engine fails (modelled by the none
result, standing for the loud, immediate abort of the operation, never a
sentinel node value); when the target is contained, remove_item detaches
it from its parent, re-links the remaining children (the remainder keeps
the original pre-order as a sublist and conserves all other identities)
and returns the detached node by value. -/
theorem remove_item_contract (T : List Node) (tid : Nat) :
    (has_item T tid = false → remove_item T tid = none)
    ∧ (has_item T tid = true →
      ∃ n T', remove_item T tid = some (n, T') ∧ n.id = tid
        ∧ ((idsL T : Multiset Nat) = ↑(idsL T') + ↑(idsN n))
        ∧ idsL T' <+ idsL T) := by
  constructor
  · intro hfalse
    have hnotin : tid ∉ idsL T := fun hmem => by
      have h2 : has_item T tid = true := ((hasItem_iff tid).2 T).mpr hmem
      rw [h2] at hfalse
      cases hfalse
    exact ((removeItem_none_iff tid).2 T).mpr hnotin
  · intro htrue
    have hmem : tid ∈ idsL T := ((hasItem_iff tid).2 T).mp htrue
    cases h : removeItemL tid T with
    | none => exact absurd (((removeItem_none_iff tid).2 T).mp h) (not_not.mpr hmem)
    | some pair =>
      cases pair with
      | mk n T' =>
        obtain ⟨hid, hperm, hsub⟩ := (removeItem_some_spec tid).2 T n T' h
        refine ⟨n, T', h, hid, ?_, hsub⟩
        rw [Multiset.coe_add]
        exact Multiset.coe_eq_coe.mpr hperm

/-- Witness for C4: in the concrete tree, identity 2 is contained and its
removal succeeds with the stated properties, while identity 9 is absent and
removal aborts. -/
theorem remove_item_contract_witness :
    (has_item exT1 2 = true ∧ has_item exT1 9 = false)
    ∧ (∃ n T', remove_item exT1 2 = some (n, T') ∧ n.id = 2
        ∧ ((idsL exT1 : Multiset Nat) = ↑(idsL T') + ↑(idsN n))
        ∧ idsL T' <+ idsL exT1)
    ∧ remove_item exT1 9 = none :=
  ⟨⟨by decide, by decide⟩,
    (remove_item_contract exT1 2).2 (by decide),
    (remove_item_contract exT1 9).1 (by decide)⟩

/-- A successful parent search returns a node of the walked forest having
the target among its direct children. -/
theorem findParent_some_spec (tid : Nat) :
    (∀ n : Node, ∀ q, findParentN tid n = some q →
      q ∈ nodesN n ∧ tid ∈ childIds q)
    ∧ ∀ l : List Node, ∀ q, findParentL tid l = some q →
      q ∈ nodesL l ∧ tid ∈ childIds q := by
  have hmk : ∀ i cs,
      (∀ q, findParentL tid cs = some q → q ∈ nodesL cs ∧ tid ∈ childIds q) →
      ∀ q, findParentN tid (.mk i cs) = some q →
        q ∈ nodesN (Node.mk i cs) ∧ tid ∈ childIds q := by
    intro i cs ih q hq
    by_cases hmem : tid ∈ cs.map Node.id
    · rw [findParentN, if_pos hmem] at hq
      cases hq
      exact ⟨by simp [nodesN], by simpa [childIds, Node.children] using hmem⟩
    · rw [findParentN, if_neg hmem] at hq
      obtain ⟨hq1, hq2⟩ := ih q hq
      exact ⟨by simp [nodesN, hq1], hq2⟩
  have hnil : ∀ q, findParentL tid [] = some q →
      q ∈ nodesL ([] : List Node) ∧ tid ∈ childIds q := by
    intro q hq
    rw [findParentL] at hq
    cases hq
  have hcons : ∀ c cs,
      (∀ q, findParentN tid c = some q → q ∈ nodesN c ∧ tid ∈ childIds q) →
      (∀ q, findParentL tid cs = some q → q ∈ nodesL cs ∧ tid ∈ childIds q) →
      ∀ q, findParentL tid (c :: cs) = some q →
        q ∈ nodesL (c :: cs) ∧ tid ∈ childIds q := by
    intro c cs ihc ihl q hq
    rw [findParentL] at hq
    cases h1 : findParentN tid c with
    | some q2 =>
      rw [h1] at hq
      cases hq
      obtain ⟨hq1, hq2⟩ := ihc q h1
      exact ⟨by simp [nodesL, List.mem_append, hq1], hq2⟩
    | none =>
      rw [h1] at hq
      obtain ⟨hq1, hq2⟩ := ihl q hq
      exact ⟨by simp [nodesL, List.mem_append, hq1], hq2⟩
  exact ⟨fun n => indN _ _ hmk hnil hcons n, fun l => indL _ _ hmk hnil hcons l⟩

/-- The parent search fails exactly when no node of the walked forest has
the target among its direct children. -/
theorem findParent_none_iff (tid : Nat) :
    (∀ n : Node, findParentN tid n = none ↔ ∀ q ∈ nodesN n, tid ∉ childIds q)
    ∧ ∀ l : List Node, findParentL tid l = none ↔ ∀ q ∈ nodesL l, tid ∉ childIds q := by
  have hmk : ∀ i cs,
      (findParentL tid cs = none ↔ ∀ q ∈ nodesL cs, tid ∉ childIds q) →
      (findParentN tid (.mk i cs) = none
        ↔ ∀ q ∈ nodesN (Node.mk i cs), tid ∉ childIds q) := by
    intro i cs ih
    by_cases hmem : tid ∈ cs.map Node.id
    · rw [findParentN, if_pos hmem]
      refine ⟨fun h => Option.noConfusion h, fun hall =>
        absurd (show tid ∈ childIds (Node.mk i cs) by
            simpa [childIds, Node.children] using hmem)
          (hall (.mk i cs) (by simp [nodesN]))⟩
    · rw [findParentN, if_neg hmem]
      rw [ih]
      constructor
      · intro hall q hq
        rcases (by simpa [nodesN] using hq : q = Node.mk i cs ∨ q ∈ nodesL cs) with
          h | h
        · subst h
          simpa [childIds, Node.children] using hmem
        · exact hall q h
      · intro hall q hq
        exact hall q (by simp [nodesN, hq])
  have hnil : findParentL tid [] = none
      ↔ ∀ q ∈ nodesL ([] : List Node), tid ∉ childIds q := by
    refine ⟨fun _ q hq => ?_, fun _ => rfl⟩
    simp [nodesL] at hq
  have hcons : ∀ c cs,
      (findParentN tid c = none ↔ ∀ q ∈ nodesN c, tid ∉ childIds q) →
      (findParentL tid cs = none ↔ ∀ q ∈ nodesL cs, tid ∉ childIds q) →
      (findParentL tid (c :: cs) = none
        ↔ ∀ q ∈ nodesL (c :: cs), tid ∉ childIds q) := by
    intro c cs ihc ihl
    rw [findParentL]
    cases h1 : findParentN tid c with
    | some q2 =>
      obtain ⟨hq1, hq2⟩ := (findParent_some_spec tid).1 c q2 h1
      exact ⟨fun h => Option.noConfusion h, fun hall =>
        absurd hq2 (hall q2 (by simp [nodesL, List.mem_append, hq1]))⟩
    | none =>
      rw [ihl]
      constructor
      · intro hall q hq
        rcases (by simpa [nodesL] using hq : q ∈ nodesN c ∨ q ∈ nodesL cs) with
          h | h
        · exact ihc.mp h1 q h
        · exact hall q h
      · intro hall q hq
        exact hall q (by simp [nodesL, List.mem_append, hq])
  exact ⟨fun n => indN _ _ hmk hnil hcons n, fun l => indL _ _ hmk hnil hcons l⟩

/-- A contained identity is either a top-level identity or a direct child of
some node of the forest. -/
theorem exist_container (tid : Nat) :
    (∀ n : Node, tid ∈ idsN n →
      tid = n.id ∨ ∃ q ∈ nodesN n, tid ∈ childIds q)
    ∧ ∀ l : List Node, tid ∈ idsL l →
      tid ∈ l.map Node.id ∨ ∃ q ∈ nodesL l, tid ∈ childIds q := by
  have hmk : ∀ i cs,
      (tid ∈ idsL cs → tid ∈ cs.map Node.id ∨ ∃ q ∈ nodesL cs, tid ∈ childIds q) →
      tid ∈ idsN (Node.mk i cs) →
        tid = (Node.mk i cs).id ∨ ∃ q ∈ nodesN (Node.mk i cs), tid ∈ childIds q := by
    intro i cs ih hmem
    rcases (by simpa [idsN] using hmem : tid = i ∨ tid ∈ idsL cs) with h | h
    · exact Or.inl (by simpa [Node.id] using h)
    · rcases ih h with h2 | ⟨q, hq1, hq2⟩
      · exact Or.inr ⟨.mk i cs, by simp [nodesN],
          by simpa [childIds, Node.children] using h2⟩
      · exact Or.inr ⟨q, by simp [nodesN, hq1], hq2⟩
  have hnil : tid ∈ idsL ([] : List Node) →
      tid ∈ ([] : List Node).map Node.id
        ∨ ∃ q ∈ nodesL ([] : List Node), tid ∈ childIds q := by
    simp [idsL]
  have hcons : ∀ c cs,
      (tid ∈ idsN c → tid = c.id ∨ ∃ q ∈ nodesN c, tid ∈ childIds q) →
      (tid ∈ idsL cs → tid ∈ cs.map Node.id ∨ ∃ q ∈ nodesL cs, tid ∈ childIds q) →
      tid ∈ idsL (c :: cs) →
        tid ∈ (c :: cs).map Node.id ∨ ∃ q ∈ nodesL (c :: cs), tid ∈ childIds q := by
    intro c cs ihc ihl hmem
    rcases (by simpa [idsL] using hmem : tid ∈ idsN c ∨ tid ∈ idsL cs) with h | h
    · rcases ihc h with h2 | ⟨q, hq1, hq2⟩
      · exact Or.inl (by simp [h2])
      · exact Or.inr ⟨q, by simp [nodesL, List.mem_append, hq1], hq2⟩
    · rcases ihl h with h2 | ⟨q, hq1, hq2⟩
      · exact Or.inl (by simp [List.mem_cons_of_mem, h2])
      · exact Or.inr ⟨q, by simp [nodesL, List.mem_append, hq1], hq2⟩
  exact ⟨fun n => indN _ _ hmk hnil hcons n, fun l => indL _ _ hmk hnil hcons l⟩

/-- A list containing two distinct elements has length at least two. -/
theorem two_le_length {α : Type} {t : List α} {x y : α}
    (hx : x ∈ t) (hy : y ∈ t) (hxy : x ≠ y) : 2 ≤ t.length := by
  cases t with
  | nil => cases hx
  | cons a t2 =>
    cases t2 with
    | nil =>
      rw [List.mem_singleton] at hx hy
      exact absurd (hx.trans hy.symm) hxy
    | cons b t3 =>
      simp only [List.length_cons]
      omega

/-- A list containing two distinct elements satisfying a predicate has
predicate count at least two. -/
theorem two_le_countP {α : Type} (p : α → Bool) (s : List α) (x y : α)
    (hx : x ∈ s) (hy : y ∈ s) (hxy : x ≠ y) (hpx : p x = true) (hpy : p y = true) :
    2 ≤ s.countP p := by
  rw [s.countP_eq_length_filter p]
  exact two_le_length (List.mem_filter.mpr ⟨hx, hpx⟩)
    (List.mem_filter.mpr ⟨hy, hpy⟩) hxy

/-- Counting bound: the number of nodes having the target as a direct child,
plus the number of top-level occurrences of the target, never exceeds the
number of occurrences of the target in the pre-order identities. -/
theorem container_count_bound (tid : Nat) :
    (∀ n : Node, (nodesN n).countP (fun q => decide (tid ∈ childIds q))
        + (if n.id = tid then 1 else 0) ≤ (idsN n).count tid)
    ∧ ∀ l : List Node, (nodesL l).countP (fun q => decide (tid ∈ childIds q))
        + (l.map Node.id).count tid ≤ (idsL l).count tid := by
  have hmk : ∀ i cs,
      ((nodesL cs).countP (fun q => decide (tid ∈ childIds q))
        + (cs.map Node.id).count tid ≤ (idsL cs).count tid) →
      (nodesN (Node.mk i cs)).countP (fun q => decide (tid ∈ childIds q))
        + (if (Node.mk i cs).id = tid then 1 else 0)
          ≤ (idsN (Node.mk i cs)).count tid := by
    intro i cs ih
    have hmem : decide (tid ∈ childIds (Node.mk i cs)) = true →
        1 ≤ (cs.map Node.id).count tid := by
      intro h
      exact List.one_le_count_iff.mpr
        (by simpa [childIds, Node.children] using decide_eq_true_eq.mp h)
    simp only [nodesN, idsN, List.countP_cons, List.count_cons, Node.id, beq_iff_eq]
    split_ifs with hA hB
    all_goals try have hx := hmem hA
    all_goals omega
  have hnil :
      (nodesL ([] : List Node)).countP (fun q => decide (tid ∈ childIds q))
        + (([] : List Node).map Node.id).count tid
          ≤ (idsL ([] : List Node)).count tid := by
    simp [nodesL, idsL]
  have hcons : ∀ c cs,
      ((nodesN c).countP (fun q => decide (tid ∈ childIds q))
        + (if c.id = tid then 1 else 0) ≤ (idsN c).count tid) →
      ((nodesL cs).countP (fun q => decide (tid ∈ childIds q))
        + (cs.map Node.id).count tid ≤ (idsL cs).count tid) →
      (nodesL (c :: cs)).countP (fun q => decide (tid ∈ childIds q))
        + ((c :: cs).map Node.id).count tid ≤ (idsL (c :: cs)).count tid := by
    intro c cs ihc ihl
    simp only [nodesL, idsL, List.countP_append, List.count_append, List.map_cons,
      List.count_cons, beq_iff_eq]
    rcases Decidable.em (c.id = tid) with hB | hB
    · rw [if_pos hB] at ihc ⊢
      omega
    · rw [if_neg hB] at ihc ⊢
      omega
  exact ⟨fun n => indN _ _ hmk hnil hcons n, fun l => indL _ _ hmk hnil hcons l⟩

/-- Under the strict-tree invariant, the direct container of a contained
identity is unique. -/
theorem uniq_container (tid : Nat) (l : List Node) (hnd : (idsL l).Nodup)
    {q q' : Node} (hq : q ∈ nodesL l) (hq' : q' ∈ nodesL l)
    (hcq : tid ∈ childIds q) (hcq' : tid ∈ childIds q') : q = q' := by
  by_contra hne
  have h2 : 2 ≤ (nodesL l).countP (fun r => decide (tid ∈ childIds r)) :=
    two_le_countP _ _ q q' hq hq' hne (decide_eq_true hcq) (decide_eq_true hcq')
  have hb := (container_count_bound tid).2 l
  have h1 : (idsL l).count tid ≤ 1 := List.nodup_iff_count_le_one.mp hnd tid
  omega

/-- Under the strict-tree invariant, a top-level identity is nobody's direct
child. -/
theorem root_no_container (tid : Nat) (l : List Node) (hnd : (idsL l).Nodup)
    (hroot : tid ∈ l.map Node.id) {q : Node} (hq : q ∈ nodesL l)
    (hcq : tid ∈ childIds q) : False := by
  have h2 : 0 < (nodesL l).countP (fun r => decide (tid ∈ childIds r)) :=
    List.countP_pos_iff.mpr ⟨q, hq, decide_eq_true hcq⟩
  have h3 : 1 ≤ (l.map Node.id).count tid := List.one_le_count_iff.mpr hroot
  have hb := (container_count_bound tid).2 l
  have h1 : (idsL l).count tid ≤ 1 := List.nodup_iff_count_le_one.mp hnd tid
  omega

/-- The identity of every top-level node occurs in the forest identities. -/
theorem root_id_mem : ∀ (l : List Node), ∀ c ∈ l, c.id ∈ idsL l := by
  intro l
  induction l with
  | nil => intro c hc; cases hc
  | cons a cs ih =>
    intro c hc
    simp only [idsL, List.mem_append]
    rcases List.mem_cons.mp hc with h | h
    · exact Or.inl (h ▸ id_mem_idsN a)
    · exact Or.inr (ih c h)

/-- A direct child of any node of the forest occurs in the forest
identities. -/
theorem child_mem_ids (tid : Nat) :
    (∀ n : Node, ∀ q ∈ nodesN n, tid ∈ childIds q → tid ∈ idsN n)
    ∧ ∀ l : List Node, ∀ q ∈ nodesL l, tid ∈ childIds q → tid ∈ idsL l := by
  have hmk : ∀ i cs,
      (∀ q ∈ nodesL cs, tid ∈ childIds q → tid ∈ idsL cs) →
      ∀ q ∈ nodesN (Node.mk i cs), tid ∈ childIds q → tid ∈ idsN (Node.mk i cs) := by
    intro i cs ih q hq hc
    simp only [idsN, List.mem_cons]
    rcases (by simpa [nodesN] using hq : q = Node.mk i cs ∨ q ∈ nodesL cs) with h | h
    · subst h
      obtain ⟨c, hcm, hcid⟩ := List.mem_map.mp (by simpa [childIds, Node.children] using hc)
      exact Or.inr (hcid ▸ root_id_mem cs c hcm)
    · exact Or.inr (ih q h hc)
  have hnil : ∀ q ∈ nodesL ([] : List Node), tid ∈ childIds q →
      tid ∈ idsL ([] : List Node) := by
    intro q hq
    simp [nodesL] at hq
  have hcons : ∀ c cs,
      (∀ q ∈ nodesN c, tid ∈ childIds q → tid ∈ idsN c) →
      (∀ q ∈ nodesL cs, tid ∈ childIds q → tid ∈ idsL cs) →
      ∀ q ∈ nodesL (c :: cs), tid ∈ childIds q → tid ∈ idsL (c :: cs) := by
    intro c cs ihc ihl q hq hc2
    simp only [idsL, List.mem_append]
    rcases (by simpa [nodesL] using hq : q ∈ nodesN c ∨ q ∈ nodesL cs) with h | h
    · exact Or.inl (ihc q h hc2)
    · exact Or.inr (ihl q h hc2)
  exact ⟨fun n => indN _ _ hmk hnil hcons n, fun l => indL _ _ hmk hnil hcons l⟩

/-- The ancestry search fails exactly when the target identity is absent. -/
theorem parents_none_iff (tid : Nat) :
    (∀ n : Node, parentsN tid n = none ↔ tid ∉ idsL n.children)
    ∧ ∀ l : List Node, parentsL tid l = none ↔ tid ∉ idsL l := by
  have hmk : ∀ i cs, (parentsL tid cs = none ↔ tid ∉ idsL cs) →
      (parentsN tid (.mk i cs) = none ↔ tid ∉ idsL (Node.mk i cs).children) := by
    intro i cs ih
    cases h : parentsL tid cs with
    | none => simp [parentsN, h, Node.children, ih.mp h]
    | some ps =>
      have hmem : tid ∈ idsL cs := by
        by_contra hq
        rw [ih.mpr hq] at h
        cases h
      simp [parentsN, h, Node.children, hmem]
  have hnil : parentsL tid [] = none ↔ tid ∉ idsL ([] : List Node) := by
    simp [parentsL, idsL]
  have hcons : ∀ c cs,
      (parentsN tid c = none ↔ tid ∉ idsL c.children) →
      (parentsL tid cs = none ↔ tid ∉ idsL cs) →
      (parentsL tid (c :: cs) = none ↔ tid ∉ idsL (c :: cs)) := by
    intro c cs ihc ihl
    by_cases hc : c.id = tid
    · have hmem : tid ∈ idsL (c :: cs) := by
        simp only [idsL, List.mem_append]
        exact Or.inl (hc ▸ id_mem_idsN c)
      simp [parentsL, hc, hmem]
    · cases h1 : parentsN tid c with
      | some ps =>
        have h2 : tid ∈ idsL c.children := by
          by_contra hq
          rw [ihc.mpr hq] at h1
          cases h1
        have hmem : tid ∈ idsL (c :: cs) := by
          simp only [idsL, List.mem_append, idsN_eq c, List.mem_cons]
          exact Or.inl (Or.inr h2)
        simp [parentsL, hc, h1, hmem]
      | none =>
        have h4 : tid ∉ idsN c := by
          rw [idsN_eq c]
          simp only [List.mem_cons]
          push_neg
          exact ⟨fun he => hc he.symm, ihc.mp h1⟩
        simp only [parentsL, if_neg hc, h1]
        rw [ihl]
        constructor
        · intro h5
          simp only [idsL, List.mem_append]
          push_neg
          exact ⟨h4, h5⟩
        · intro h5 hq
          exact h5 (by simp only [idsL, List.mem_append]; exact Or.inr hq)
  exact ⟨fun n => indN _ _ hmk hnil hcons n, fun l => indL _ _ hmk hnil hcons l⟩

/-- C7: for a target contained in the tree (under the strict-tree
invariant), find_parent returns none exactly when the target is a direct
child of the root scope, and a successful result is the unique direct
container of the target; for a target not contained, find_parent, parents
and has_item consistently report not-found (none, empty, false) without
raising an error. -/
theorem find_parent_spec (T : List Node) (tid : Nat) (hnd : (idsL T).Nodup) :
    (tid ∈ idsL T →
      ((find_parent T tid = none ↔ tid ∈ T.map Node.id)
        ∧ ∀ q, find_parent T tid = some q →
            q ∈ nodesL T ∧ tid ∈ childIds q
              ∧ ∀ q' ∈ nodesL T, tid ∈ childIds q' → q' = q))
    ∧ (tid ∉ idsL T →
      find_parent T tid = none ∧ parents T tid = [] ∧ has_item T tid = false) := by
  constructor
  · intro hmem
    constructor
    · constructor
      · intro hnone
        rcases (exist_container tid).2 T hmem with h | ⟨q, hq, hcq⟩
        · exact h
        · exact absurd hcq (((findParent_none_iff tid).2 T).mp hnone q hq)
      · intro hroot
        cases h : findParentL tid T with
        | none => exact h
        | some q =>
          obtain ⟨hq, hcq⟩ := (findParent_some_spec tid).2 T q h
          exact absurd (root_no_container tid T hnd hroot hq hcq) not_false

    · intro q hq
      obtain ⟨hq1, hq2⟩ := (findParent_some_spec tid).2 T q hq
      exact ⟨hq1, hq2, fun q' hq' hcq' => uniq_container tid T hnd hq' hq1 hcq' hq2⟩
  · intro hnotin
    refine ⟨?_, ?_, ?_⟩
    · cases h : findParentL tid T with
      | none => exact h
      | some q =>
        obtain ⟨hq, hcq⟩ := (findParent_some_spec tid).2 T q h
        exact absurd ((child_mem_ids tid).2 T q hq hcq) hnotin
    · show (parentsL tid T).getD [] = []
      rw [((parents_none_iff tid).2 T).mpr hnotin]
      rfl
    · cases hb : hasItemL tid T with
      | false => exact hb
      | true => exact absurd (((hasItem_iff tid).2 T).mp hb) hnotin

/-- Witness for C7 at a concrete contained target: identity 2 inside the
two-level example tree. -/
theorem find_parent_spec_witness :
    ((idsL exT1).Nodup ∧ (2 : Nat) ∈ idsL exT1)
    ∧ ((find_parent exT1 2 = none ↔ (2 : Nat) ∈ exT1.map Node.id)
      ∧ ∀ q, find_parent exT1 2 = some q →
          q ∈ nodesL exT1 ∧ 2 ∈ childIds q
            ∧ ∀ q' ∈ nodesL exT1, 2 ∈ childIds q' → q' = q) :=
  ⟨⟨by decide, by decide⟩, (find_parent_spec exT1 2 (by decide)).1 (by decide)⟩

/-- Containment chain read outermost-first: an empty chain means the target
is a direct child of the current scope; otherwise the first element is a
node of the current scope and the rest is a chain inside it.  Applied to
the reverse of a `parents` result it states exactly that the result is
ordered innermost-first, each container nests in the next, and the last
element of a non-empty result is a top-level node, the outermost container
strictly below the scope. -/
def IsChain (tid : Nat) : List Node → List Node → Prop
  | l, [] => tid ∈ l.map Node.id
  | l, c :: rest => c ∈ l ∧ IsChain tid c.children rest

/-- A chain inside a forest is a chain inside any extension of the forest. -/
theorem isChain_cons (tid : Nat) (c : Node) (cs ch : List Node)
    (h : IsChain tid cs ch) : IsChain tid (c :: cs) ch := by
  cases ch with
  | nil =>
    show tid ∈ (c :: cs).map Node.id
    exact List.mem_cons_of_mem _ h
  | cons c2 rest =>
    exact ⟨List.mem_cons_of_mem _ h.1, h.2⟩

/-- A successful ancestry search yields a containment chain: reversed, the
result is a chain from a top-level node down to the direct container. -/
theorem parents_chain_spec (tid : Nat) :
    (∀ n : Node, ∀ ps, parentsN tid n = some ps →
      ∀ l, n ∈ l → IsChain tid l ps.reverse)
    ∧ ∀ l : List Node, ∀ ps, parentsL tid l = some ps → IsChain tid l ps.reverse := by
  have hmk : ∀ i cs,
      (∀ ps, parentsL tid cs = some ps → IsChain tid cs ps.reverse) →
      ∀ ps, parentsN tid (.mk i cs) = some ps →
        ∀ l, Node.mk i cs ∈ l → IsChain tid l ps.reverse := by
    intro i cs ih ps hp l hmem
    cases h : parentsL tid cs with
    | none =>
      simp only [parentsN, h] at hp
      exact Option.noConfusion hp
    | some ps2 =>
      simp only [parentsN, h, Option.some.injEq] at hp
      subst hp
      rw [List.reverse_append, List.reverse_singleton]
      show IsChain tid l (Node.mk i cs :: ps2.reverse)
      exact ⟨hmem, ih ps2 h⟩
  have hnil : ∀ ps, parentsL tid [] = some ps → IsChain tid [] ps.reverse := by
    intro ps hp
    rw [parentsL] at hp
    exact Option.noConfusion hp
  have hcons : ∀ c cs,
      (∀ ps, parentsN tid c = some ps → ∀ l, c ∈ l → IsChain tid l ps.reverse) →
      (∀ ps, parentsL tid cs = some ps → IsChain tid cs ps.reverse) →
      ∀ ps, parentsL tid (c :: cs) = some ps → IsChain tid (c :: cs) ps.reverse := by
    intro c cs ihc ihl ps hp
    by_cases hc : c.id = tid
    · simp only [parentsL, if_pos hc, Option.some.injEq] at hp
      subst hp
      show tid ∈ (c :: cs).map Node.id
      exact List.mem_map.mpr ⟨c, List.mem_cons_self c cs, hc⟩
    · simp only [parentsL, if_neg hc] at hp
      cases h1 : parentsN tid c with
      | some ps2 =>
        simp only [h1, Option.some.injEq] at hp
        subst hp
        exact ihc ps2 h1 (c :: cs) (List.mem_cons_self c cs)
      | none =>
        simp only [h1] at hp
        exact isChain_cons tid c cs ps.reverse (ihl ps hp)
  exact ⟨fun n => indN _ _ hmk hnil hcons n, fun l => indL _ _ hmk hnil hcons l⟩

/-- C8: parents returns the chain of containers enclosing the target,
innermost first and extending outward to but not including the root scope:
reversed, the result is a containment chain over the tree (each element a
node of the scope it is drawn from, ending with the target as a direct
child of the innermost), the last element of a non-empty result is a
top-level node, the outermost container strictly below the scope; when the
target is not found the result is the empty sequence. -/
theorem parents_innermost_first (T : List Node) (tid : Nat) :
    (has_item T tid = false → parents T tid = [])
    ∧ (has_item T tid = true →
      IsChain tid T (parents T tid).reverse
      ∧ ∀ x, (parents T tid).getLast? = some x → x ∈ T) := by
  constructor
  · intro hfalse
    have hnotin : tid ∉ idsL T := fun hm => by
      have h2 : has_item T tid = true := ((hasItem_iff tid).2 T).mpr hm
      rw [h2] at hfalse
      cases hfalse
    show (parentsL tid T).getD [] = []
    rw [((parents_none_iff tid).2 T).mpr hnotin]
    rfl
  · intro htrue
    have hmem : tid ∈ idsL T := ((hasItem_iff tid).2 T).mp htrue
    cases h : parentsL tid T with
    | none => exact absurd (((parents_none_iff tid).2 T).mp h) (not_not.mpr hmem)
    | some ps =>
      have hch : IsChain tid T ps.reverse := (parents_chain_spec tid).2 T ps h
      have hps : parents T tid = ps := by
        show (parentsL tid T).getD [] = ps
        rw [h]
        rfl
      rw [hps]
      refine ⟨hch, ?_⟩
      intro x hx
      have h2 : ps.reverse.head? = some x := by
        rw [List.head?_reverse]
        exact hx
      cases hr : ps.reverse with
      | nil =>
        rw [hr] at h2
        exact Option.noConfusion h2
      | cons a rest =>
        rw [hr] at h2
        have hax : a = x := by
          simp only [List.head?_cons, Option.some.injEq] at h2
          exact h2
        rw [hr] at hch
        exact hax ▸ hch.1

/-- Witness for C8 at a concrete contained target: identity 3 nested two
levels deep beside a second top-level node. -/
theorem parents_innermost_first_witness :
    has_item [Node.mk 1 [.mk 2 [.mk 3 []]], .mk 4 []] 3 = true
    ∧ (IsChain 3 [Node.mk 1 [.mk 2 [.mk 3 []]], .mk 4 []]
        (parents [Node.mk 1 [.mk 2 [.mk 3 []]], .mk 4 []] 3).reverse
      ∧ ∀ x, (parents [Node.mk 1 [.mk 2 [.mk 3 []]], .mk 4 []] 3).getLast? = some x →
          x ∈ [Node.mk 1 [.mk 2 [.mk 3 []]], .mk 4 []]) :=
  ⟨by decide, (parents_innermost_first [Node.mk 1 [.mk 2 [.mk 3 []]], .mk 4 []] 3).2
    (by decide)⟩

end Visitable
